import Mathlib

/-!
Verification development for the car-website-scraping pipeline
(`src/05_car_alerts`): a shallow embedding of the matcher
(`matcher.py`), the YAML record store (`orchestrator.py`,
`_save_batch_to_yaml`), the link paginator (`article_parser.py`) and the
daily-job batch loop (`orchestrator.py`, `run_daily_job`), together with
theorems settling the specification's claims about them.

Modelling conventions:
* Item identities (canonical URLs used as keys) are modelled as `Nat`;
  the embedded code compares them for equality only.
* The python `set` `sent_cache` is modelled as `Finset Nat`.
* Fallible python code is modelled with `Except`; a raised exception is
  an `Except.error` value that carries the relevant state at raise time.
-/

namespace CarAlerts

instance {ε : Type u} {α : Type v} [DecidableEq ε] [DecidableEq α] :
    DecidableEq (Except ε α) := fun a b =>
  match a, b with
  | .error e, .error f => decidable_of_iff (e = f) (by simp)
  | .error _, .ok _ => .isFalse (by simp)
  | .ok _, .error _ => .isFalse (by simp)
  | .ok x, .ok y => decidable_of_iff (x = y) (by simp)

/-- A vehicle record as produced by `parse_vehicle` (orchestrator.py).
Only the `"url"` key is ever consulted by the embedded code paths
(`car_json["url"]` in `CarMatcher.match`, `car["url"]` in
`_save_batch_to_yaml`); the remaining fields of the dict are never read
before the matcher raises, so they are not represented. -/
structure Car where
  url : Nat
  deriving DecidableEq, Repr

/-- A reported match: `(url, query)` as appended to `hits` in
`CarMatcher.match`. -/
abbrev Hit := Nat × String

/-- The inner per-batch loop of `CarMatcher.match` (matcher.py lines
132-143).  For each car of the assembled batch: if its url is in
`sent_cache` the car is skipped; otherwise the query loop runs, and its
body evaluates `self._predict(q, car_json)`.  The class `CarMatcher`
defines a method named `predict` but no attribute `_predict`, so this
attribute lookup raises `AttributeError` as soon as the query list is
non-empty.  The error value carries the url being processed and the
cache at raise time.  With an empty query list the loop body never runs
and the car produces no hit. -/
def processBatch (cache : Finset Nat) (queries : List String) :
    List Car → List Hit → Except (Nat × Finset Nat) (List Hit × Finset Nat)
  | [], hits => .ok (hits, cache)
  | car :: rest, hits =>
    if car.url ∈ cache then processBatch cache queries rest hits
    else if queries.isEmpty then processBatch cache queries rest hits
    else .error (car.url, cache)

/-- The outer loop of `CarMatcher.match` (matcher.py lines 126-147):
cars are accumulated into `batch`; once `len(batch)` reaches
`batch_size` the batch is processed and cleared.  A trailing batch that
never reaches `batch_size` is left unprocessed when the iteration
ends. -/
def matchLoop (queries : List String) (bs : Nat) :
    List Car → List Car → List Hit → Finset Nat →
      Except (Nat × Finset Nat) (List Hit × Finset Nat)
  | [], _batch, hits, cache => .ok (hits, cache)
  | car :: rest, batch, hits, cache =>
    if (batch ++ [car]).length < bs then
      matchLoop queries bs rest (batch ++ [car]) hits cache
    else
      match processBatch cache queries (batch ++ [car]) hits with
      | .error e => .error e
      | .ok (hits1, cache1) => matchLoop queries bs rest [] hits1 cache1

/-- Embedding of `CarMatcher.match` (matcher.py lines 112-147).  `cache` is
`self.sent_cache`, `queries` the contents of `data/queries.json`.  On
normal return the python function returns `hits`; we also return the
final cache (which `match` persists to `sent.json` when `hits` is
non-empty). -/
def CarMatcher.matchCars (cache : Finset Nat) (queries : List String)
    (cars : List Car) (bs : Nat) :
    Except (Nat × Finset Nat) (List Hit × Finset Nat) :=
  matchLoop queries bs cars [] [] cache

/-- The records of `cars` that land in a fully assembled batch of
`CarMatcher.match` — i.e. the records the per-batch loop actually
iterates over; mirrors the batching recursion of `matchLoop`. -/
def fullBatchRecs (bs : Nat) : List Car → List Car → List Car
  | [], _batch => []
  | car :: rest, batch =>
    if (batch ++ [car]).length < bs then fullBatchRecs bs rest (batch ++ [car])
    else (batch ++ [car]) ++ fullBatchRecs bs rest []

lemma processBatch_queries_nil (cache : Finset Nat) (batch : List Car)
    (hits : List Hit) : processBatch cache [] batch hits = .ok (hits, cache) := by
  induction batch with
  | nil => rfl
  | cons car rest ih =>
    rw [processBatch]
    by_cases hc : car.url ∈ cache
    · rw [if_pos hc]; exact ih
    · rw [if_neg hc, if_pos (List.isEmpty_nil (α := String))]; exact ih

lemma processBatch_all_seen (cache : Finset Nat) (queries : List String)
    (batch : List Car) (hits : List Hit) (h : ∀ car ∈ batch, car.url ∈ cache) :
    processBatch cache queries batch hits = .ok (hits, cache) := by
  induction batch with
  | nil => rfl
  | cons car rest ih =>
    rw [processBatch]
    rw [if_pos (h car (List.mem_cons_self car rest))]
    exact ih fun c hc => h c (List.mem_cons_of_mem car hc)

lemma processBatch_err (cache : Finset Nat) (queries : List String)
    (batch : List Car) (hits : List Hit) (hq : queries ≠ [])
    (h : ∃ car ∈ batch, car.url ∉ cache) :
    ∃ u, processBatch cache queries batch hits = .error (u, cache) ∧ u ∉ cache := by
  induction batch with
  | nil => simp at h
  | cons car rest ih =>
    by_cases hc : car.url ∈ cache
    · have hrest : ∃ c ∈ rest, c.url ∉ cache := by
        obtain ⟨c, hmem, hcu⟩ := h
        rcases List.mem_cons.mp hmem with rfl | hr
        · exact absurd hc hcu
        · exact ⟨c, hr, hcu⟩
      obtain ⟨u, hu, hnu⟩ := ih hrest
      refine ⟨u, ?_, hnu⟩
      rw [processBatch, if_pos hc]
      exact hu
    · refine ⟨car.url, ?_, hc⟩
      rw [processBatch, if_neg hc, if_neg (by simp [hq])]

lemma matchLoop_queries_nil (bs : Nat) :
    ∀ (cars batch : List Car) (hits : List Hit) (cache : Finset Nat),
      matchLoop [] bs cars batch hits cache = .ok (hits, cache) := by
  intro cars
  induction cars with
  | nil => intro batch hits cache; rfl
  | cons car rest ih =>
    intro batch hits cache
    rw [matchLoop]
    split
    · exact ih _ _ _
    · rw [processBatch_queries_nil]
      exact ih _ _ _

lemma matchLoop_all_seen (queries : List String) (bs : Nat) :
    ∀ (cars batch : List Car) (hits : List Hit) (cache : Finset Nat),
      (∀ car ∈ fullBatchRecs bs cars batch, car.url ∈ cache) →
      matchLoop queries bs cars batch hits cache = .ok (hits, cache) := by
  intro cars
  induction cars with
  | nil => intro batch hits cache _; rfl
  | cons car rest ih =>
    intro batch hits cache h
    rw [matchLoop]
    rw [fullBatchRecs] at h
    by_cases hlt : (batch ++ [car]).length < bs
    · rw [if_pos hlt]
      rw [if_pos hlt] at h
      exact ih _ _ _ h
    · rw [if_neg hlt]
      rw [if_neg hlt] at h
      rw [processBatch_all_seen cache queries _ hits
        (fun c hc => h c (List.mem_append_left _ hc))]
      exact ih _ _ _ (fun c hc => h c (List.mem_append_right _ hc))

lemma matchLoop_err (queries : List String) (bs : Nat) (hq : queries ≠ []) :
    ∀ (cars batch : List Car) (hits : List Hit) (cache : Finset Nat),
      (∃ car ∈ fullBatchRecs bs cars batch, car.url ∉ cache) →
      ∃ u, matchLoop queries bs cars batch hits cache = .error (u, cache) ∧
        u ∉ cache := by
  intro cars
  induction cars with
  | nil => intro batch hits cache h; simp [fullBatchRecs] at h
  | cons car rest ih =>
    intro batch hits cache h
    rw [matchLoop]
    rw [fullBatchRecs] at h
    by_cases hlt : (batch ++ [car]).length < bs
    · rw [if_pos hlt]
      rw [if_pos hlt] at h
      exact ih _ _ _ h
    · rw [if_neg hlt]
      rw [if_neg hlt] at h
      by_cases hb : ∃ c ∈ batch ++ [car], c.url ∉ cache
      · obtain ⟨u, hu, hnu⟩ := processBatch_err cache queries _ hits hq hb
        exact ⟨u, by rw [hu], hnu⟩
      · push_neg at hb
        rw [processBatch_all_seen cache queries _ hits hb]
        refine ih _ _ _ ?_
        obtain ⟨c, hmem, hcu⟩ := h
        rcases List.mem_append.mp hmem with hl | hr
        · exact absurd (hb c hl) hcu
        · exact ⟨c, hr, hcu⟩

/-- C1: in the end-to-end scenario of spec §8.6 (25 items, 3 pages, batch
size 10, one query, threshold 0.5), the claim expects a run to yield
exactly `count(diesel items)` hits with SeenSet equal to the diesel
identities.  The code instead raises: on the first full chunk of 10
unseen items `CarMatcher.match` evaluates the undefined attribute
`self._predict` and raises `AttributeError` at the very first record
(first conjunct), and even a chunk of 5 items — the final partial
batch — is never scored at all, returning no hits and leaving the cache
untouched (second conjunct). -/
theorem matchCars_e2e_first_chunk_raises_and_partial_chunk_skipped :
    CarMatcher.matchCars ∅ ["diesel kombi"]
        ((List.range 10).map (fun i => ⟨i⟩)) 10 = .error (0, ∅) ∧
      CarMatcher.matchCars ∅ ["diesel kombi"]
        ((List.range 5).map (fun i => ⟨20 + i⟩)) 10 = .ok ([], ∅) := by
  constructor <;> decide

/-- C2 (counterexample): the claim states that any call to
`CarMatcher.match` with at least `batch_size` records, at least one of
them unseen, and a non-empty query list raises `AttributeError`.  False:
with `batch_size = 2` and three records whose only unseen one is the
third, the unseen record stays in the trailing partial batch, which is
never processed — the call returns normally with no hits. -/
theorem matchCars_unseen_in_partial_batch_no_raise :
    CarMatcher.matchCars {0, 1} ["q"] [⟨0⟩, ⟨1⟩, ⟨2⟩] 2 = .ok ([], {0, 1}) := by
  decide

/-- C2 (amended): a call to `CarMatcher.match` raises `AttributeError`
iff the query list is non-empty and some record that lands in a fully
assembled batch (the first `⌊n/batch_size⌋·batch_size` records) has a
url not in `sent_cache`; the raise happens before any hit is produced
and propagates to the caller with the cache unchanged. -/
theorem matchCars_raises_iff (cache : Finset Nat) (queries : List String)
    (cars : List Car) (bs : Nat) :
    (∃ u c, CarMatcher.matchCars cache queries cars bs = .error (u, c)) ↔
      queries ≠ [] ∧ ∃ car ∈ fullBatchRecs bs cars [], car.url ∉ cache := by
  constructor
  · rintro ⟨u, c, hu⟩
    by_cases hq : queries = []
    · subst hq
      rw [CarMatcher.matchCars, matchLoop_queries_nil] at hu
      exact absurd hu (by simp)
    · refine ⟨hq, ?_⟩
      by_contra hall
      push_neg at hall
      rw [CarMatcher.matchCars, matchLoop_all_seen queries bs cars [] [] cache hall]
        at hu
      exact absurd hu (by simp)
  · rintro ⟨hq, h⟩
    obtain ⟨u, hu, -⟩ := matchLoop_err queries bs hq cars [] [] cache h
    exact ⟨u, cache, hu⟩

/-- C6: the claim expects first-match determinism — an unseen record
scoring above threshold on several queries is reported exactly once,
paired with the earliest matching query.  The code never gets that far:
scoring a single unseen record against a non-empty query list evaluates
the undefined attribute `self._predict` and raises `AttributeError`, so
no hit is ever reported. -/
theorem matchCars_single_record_raises :
    CarMatcher.matchCars ∅ ["query a", "query b"] [⟨7⟩] 1 = .error (7, ∅) := by
  decide

/-- C10: across every call to `CarMatcher.match`, the cache (SeenSet) is
returned unchanged — identities are never removed — and whenever the
scorer is invoked on a record (the invocation that raises, carrying the
record's url) that record's url was not in the cache: a record whose
identity is already in `sent_cache` is skipped before any scorer
call. -/
theorem matchCars_cache_preserved_and_seen_never_scored
    (cache : Finset Nat) (queries : List String) (cars : List Car) (bs : Nat) :
    (∀ hits c, CarMatcher.matchCars cache queries cars bs = .ok (hits, c) →
      c = cache) ∧
    (∀ u c, CarMatcher.matchCars cache queries cars bs = .error (u, c) →
      u ∉ cache ∧ c = cache) := by
  by_cases hq : queries = []
  · subst hq
    rw [CarMatcher.matchCars, matchLoop_queries_nil]
    constructor
    · intro hits c hc
      rw [Except.ok.injEq, Prod.mk.injEq] at hc
      exact hc.2.symm
    · intro u c hc
      exact absurd hc (by simp)
  · by_cases hall : ∀ car ∈ fullBatchRecs bs cars [], car.url ∈ cache
    · rw [CarMatcher.matchCars, matchLoop_all_seen queries bs cars [] [] cache hall]
      constructor
      · intro hits c hc
        rw [Except.ok.injEq, Prod.mk.injEq] at hc
        exact hc.2.symm
      · intro u c hc
        exact absurd hc (by simp)
    · push_neg at hall
      obtain ⟨u, hu, hnu⟩ := matchLoop_err queries bs hq cars [] [] cache hall
      rw [CarMatcher.matchCars, hu]
      constructor
      · intro hits c hc
        exact absurd hc (by simp)
      · intro u' c' hc
        rw [Except.error.injEq, Prod.mk.injEq] at hc
        exact ⟨hc.1 ▸ hnu, hc.2.symm⟩

/-- Witness for `matchCars_cache_preserved_and_seen_never_scored` at a
concrete input: with cache `{3}`, one query and records with urls 3 and
4, the call raises at url 4, which is indeed unseen, and the cache is
handed back unchanged. -/
theorem matchCars_cache_preserved_witness :
    (4 : Nat) ∉ ({3} : Finset Nat) ∧ ({3} : Finset Nat) = {3} :=
  (matchCars_cache_preserved_and_seen_never_scored {3} ["q"] [⟨3⟩, ⟨4⟩] 2).2
    4 {3} (by decide)

/-!
RecordStore: `_save_batch_to_yaml` (orchestrator.py lines 44-89).

A shard file `vehicles_data_N.yaml` holds a YAML mapping keyed by url;
we model a shard as the list of its url keys in insertion order, and
the data directory as an association list from the numeric suffix `N`
to the shard contents.  Record payloads are irrelevant to the claims
(only the url key is consulted), so they are not represented.
-/

/-- Contents of one shard file: its url keys in insertion order. -/
abbrev Shard := List Nat

/-- The data directory: shard files keyed by their numeric suffix. -/
abbrev Store := List (Nat × Shard)

/-- The file name `vehicles_data_N.yaml` of shard `N`. -/
def fileName (n : Nat) : String := "vehicles_data_" ++ toString n ++ ".yaml"

/-- Lexicographic (code-point) comparison of character sequences — the
order python's `sorted` uses on strings. -/
def chLt : List Char → List Char → Bool
  | [], [] => false
  | [], _ :: _ => true
  | _ :: _, [] => false
  | a :: as, b :: bs =>
    if a.toNat < b.toNat then true
    else if b.toNat < a.toNat then false
    else chLt as bs

/-- Lexicographic (code-point) comparison of strings. -/
def strLt (a b : String) : Bool := chLt a.data b.data

/-- Discovery step `sorted(DATA_DIR.glob("vehicles_data_*.yaml"))[-1]` (orchestrator.py
line 50): the shard whose file name is LEXICOGRAPHICALLY greatest. -/
def latestKey : List Nat → Option Nat
  | [] => none
  | k :: ks =>
    match latestKey ks with
    | none => some k
    | some m => if strLt (fileName m) (fileName k) then some k else some m

/-- The shard suffixes present in the data directory. -/
def fsKeys (fs : Store) : List Nat := fs.map Prod.fst

/-- Read shard `n` (yaml.safe_load of the file; `[]` if absent). -/
def fsGet : Store → Nat → Shard
  | [], _ => []
  | e :: rest, n => if e.1 = n then e.2 else fsGet rest n

/-- Is there a shard file with suffix `n`? -/
def fsHas : Store → Nat → Bool
  | [], _ => false
  | e :: rest, n => if e.1 = n then true else fsHas rest n

/-- Replace the contents of every entry with suffix `n`. -/
def fsReplace : Store → Nat → Shard → Store
  | [], _, _ => []
  | e :: rest, n, s => (if e.1 = n then (n, s) else e) :: fsReplace rest n s

/-- Write shard `n` (yaml.safe_dump overwrites the file; creates it if
absent). -/
def fsWrite (fs : Store) (n : Nat) (s : Shard) : Store :=
  if fsHas fs n then fsReplace fs n s else fs ++ [(n, s)]

/-- Discovery of the current shard (orchestrator.py lines 49-60): the
lexicographically latest file and its contents, or a fresh
`vehicles_data_1.yaml` with empty contents if no shard exists. -/
def activeShard (fs : Store) : Nat × Shard :=
  match latestKey (fsKeys fs) with
  | some n => (n, fsGet fs n)
  | none => (1, [])

/-- The per-record loop of `_save_batch_to_yaml` (lines 65-83): skip a
url already in the membership set, otherwise append it; when the
working set reaches 3000 entries, persist it to the current shard and
start shard `current + 1` with an empty working set.  Returns the new
directory, the current shard suffix, the working set and the count of
added records. -/
def saveLoop : List Nat → Store → Nat → Shard → Nat → Store × Nat × Shard × Nat
  | [], fs, cur, ex, added => (fs, cur, ex, added)
  | url :: rest, fs, cur, ex, added =>
    if url ∈ ex then saveLoop rest fs cur ex added
    else if 3000 ≤ (ex ++ [url]).length then
      saveLoop rest (fsWrite fs cur (ex ++ [url])) (cur + 1) [] (added + 1)
    else saveLoop rest fs cur (ex ++ [url]) (added + 1)

/-- Embedding of `_save_batch_to_yaml` (orchestrator.py lines 44-89): discover the
active shard, run the per-record loop, and persist the tail working set
iff any record was added.  Returns the directory and the `added`
count. -/
def saveBatchToYaml (fs : Store) (batch : List Nat) : Store × Nat :=
  if 0 < (saveLoop batch fs (activeShard fs).1 (activeShard fs).2 0).2.2.2 then
    (fsWrite (saveLoop batch fs (activeShard fs).1 (activeShard fs).2 0).1
      (saveLoop batch fs (activeShard fs).1 (activeShard fs).2 0).2.1
      (saveLoop batch fs (activeShard fs).1 (activeShard fs).2 0).2.2.1,
     (saveLoop batch fs (activeShard fs).1 (activeShard fs).2 0).2.2.2)
  else
    ((saveLoop batch fs (activeShard fs).1 (activeShard fs).2 0).1,
     (saveLoop batch fs (activeShard fs).1 (activeShard fs).2 0).2.2.2)

/-- The urls of `batch` that the loop actually inserts, given that the
membership set starts as `ex`: first occurrences not already present. -/
def dedupNew : List Nat → List Nat → List Nat
  | [], _ => []
  | u :: rest, ex =>
    if u ∈ ex then dedupNew rest ex else u :: dedupNew rest (ex ++ [u])

lemma saveBatch_small_sanity : saveBatchToYaml [] [5, 5, 6] = ([(1, [5, 6])], 2) := by
  decide

lemma latestKey_two_sanity : latestKey [1, 2] = some 2 := by decide

lemma latestKey_ten_sanity : latestKey [1, 2, 3, 4, 5, 6, 7, 8, 9, 10] = some 9 := by
  decide

lemma latestKey_mem : ∀ (ks : List Nat) (m : Nat), latestKey ks = some m → m ∈ ks := by
  intro ks
  induction ks with
  | nil => intro m h; exact absurd h (by simp [latestKey])
  | cons k ks ih =>
    intro m h
    rw [latestKey] at h
    cases hks : latestKey ks with
    | none =>
      rw [hks] at h
      have h' : some k = some m := h
      simp only [Option.some.injEq] at h'
      simp [h']
    | some m' =>
      rw [hks] at h
      have h' : (if strLt (fileName m') (fileName k) then some k else some m')
          = some m := h
      by_cases hlt : strLt (fileName m') (fileName k) = true
      · rw [if_pos hlt] at h'
        simp only [Option.some.injEq] at h'
        simp [h']
      · rw [if_neg hlt] at h'
        simp only [Option.some.injEq] at h'
        exact List.mem_cons_of_mem k (h' ▸ ih m' hks)

lemma latestKey_eq_none : ∀ ks : List Nat, latestKey ks = none ↔ ks = [] := by
  intro ks
  cases ks with
  | nil => simp [latestKey]
  | cons k ks =>
    constructor
    · intro h
      exfalso
      rw [latestKey] at h
      cases hks : latestKey ks with
      | none =>
        rw [hks] at h
        exact Option.noConfusion h
      | some m =>
        rw [hks] at h
        have h' : (if strLt (fileName m) (fileName k) then some k else some m)
            = none := h
        by_cases hlt : strLt (fileName m) (fileName k) = true
        · rw [if_pos hlt] at h'; exact Option.noConfusion h'
        · rw [if_neg hlt] at h'; exact Option.noConfusion h'
    · intro h; exact absurd h (by simp)

lemma fsHas_iff (fs : Store) (n : Nat) : fsHas fs n = true ↔ n ∈ fsKeys fs := by
  induction fs with
  | nil => simp [fsHas, fsKeys]
  | cons e rest ih =>
    rw [fsHas]
    by_cases he : e.1 = n
    · simp [fsKeys, he]
    · rw [if_neg he, ih]
      constructor
      · intro h
        simp only [fsKeys, List.map_cons, List.mem_cons]
        exact Or.inr (by simpa [fsKeys] using h)
      · intro h
        simp only [fsKeys, List.map_cons, List.mem_cons] at h
        rcases h with h | h
        · exact absurd h.symm he
        · simpa [fsKeys] using h

lemma fsGet_fsReplace_self (fs : Store) (n : Nat) (s : Shard)
    (h : n ∈ fsKeys fs) : fsGet (fsReplace fs n s) n = s := by
  induction fs with
  | nil => simp [fsKeys] at h
  | cons e rest ih =>
    rw [fsReplace]
    by_cases he : e.1 = n
    · rw [if_pos he, fsGet, if_pos rfl]
    · rw [if_neg he, fsGet, if_neg he]
      refine ih ?_
      simp only [fsKeys, List.map_cons, List.mem_cons] at h
      rcases h with h | h
      · exact absurd h.symm he
      · exact h

lemma fsGet_append_single (fs : Store) (n : Nat) (s : Shard) :
    fsGet (fs ++ [(n, s)]) n = if n ∈ fsKeys fs then fsGet fs n else s := by
  induction fs with
  | nil => simp [fsGet, fsKeys]
  | cons e rest ih =>
    rw [List.cons_append, fsGet]
    by_cases he : e.1 = n
    · rw [if_pos he, fsGet, if_pos he, if_pos (by simp [fsKeys, he])]
    · rw [if_neg he, ih, fsGet, if_neg he]
      by_cases hn : n ∈ fsKeys rest
      · rw [if_pos hn, if_pos (by simp [fsKeys] at hn ⊢; exact Or.inr hn)]
      · rw [if_neg hn, if_neg ?_]
        simp only [fsKeys, List.map_cons, List.mem_cons]
        rintro (h | h)
        · exact he h.symm
        · exact hn h

lemma fsGet_fsWrite_self (fs : Store) (n : Nat) (s : Shard) :
    fsGet (fsWrite fs n s) n = s := by
  rw [fsWrite]
  by_cases hh : fsHas fs n = true
  · rw [if_pos hh]
    exact fsGet_fsReplace_self fs n s ((fsHas_iff fs n).mp hh)
  · rw [if_neg hh, fsGet_append_single,
      if_neg (fun hm => hh ((fsHas_iff fs n).mpr hm))]

lemma fsGet_fsWrite_other (fs : Store) (n k : Nat) (s : Shard) (hne : k ≠ n) :
    fsGet (fsWrite fs n s) k = fsGet fs k := by
  rw [fsWrite]
  by_cases hh : fsHas fs n = true
  · rw [if_pos hh]
    clear hh
    induction fs with
    | nil => rfl
    | cons e rest ih =>
      rw [fsReplace]
      by_cases he : e.1 = n
      · rw [if_pos he, fsGet, fsGet, if_neg (fun h : n = k => hne h.symm),
          if_neg (fun h : e.1 = k => hne (he ▸ h).symm)]
        exact ih
      · rw [if_neg he, fsGet, fsGet]
        by_cases hek : e.1 = k
        · rw [if_pos hek, if_pos hek]
        · rw [if_neg hek, if_neg hek]
          exact ih
  · rw [if_neg hh]
    clear hh
    induction fs with
    | nil =>
      rw [List.nil_append]
      simp only [fsGet]
      rw [if_neg (fun h : n = k => hne h.symm)]
    | cons e rest ih =>
      rw [List.cons_append, fsGet, fsGet]
      by_cases hek : e.1 = k
      · rw [if_pos hek, if_pos hek]
      · rw [if_neg hek, if_neg hek]
        exact ih

lemma fsKeys_fsReplace (fs : Store) (n : Nat) (s : Shard) :
    fsKeys (fsReplace fs n s) = fsKeys fs := by
  induction fs with
  | nil => rfl
  | cons e rest ih =>
    rw [fsReplace]
    by_cases he : e.1 = n
    · rw [if_pos he]
      simp only [fsKeys, List.map_cons] at ih ⊢
      rw [ih, he]
    · rw [if_neg he]
      simp only [fsKeys, List.map_cons] at ih ⊢
      rw [ih]

lemma fsKeys_fsWrite_of_mem (fs : Store) (n : Nat) (s : Shard)
    (h : n ∈ fsKeys fs) : fsKeys (fsWrite fs n s) = fsKeys fs := by
  rw [fsWrite, if_pos ((fsHas_iff fs n).mpr h), fsKeys_fsReplace]

lemma fsKeys_fsWrite_of_not_mem (fs : Store) (n : Nat) (s : Shard)
    (h : n ∉ fsKeys fs) : fsKeys (fsWrite fs n s) = fsKeys fs ++ [n] := by
  rw [fsWrite, if_neg (fun hh => h ((fsHas_iff fs n).mp hh))]
  simp [fsKeys]

lemma mem_fsWrite (fs : Store) (n : Nat) (s : Shard) (e : Nat × Shard)
    (h : e ∈ fsWrite fs n s) : e ∈ fs ∨ e = (n, s) := by
  rw [fsWrite] at h
  by_cases hh : fsHas fs n = true
  · rw [if_pos hh] at h
    clear hh
    induction fs with
    | nil => exact absurd h (by simp [fsReplace])
    | cons a rest ih =>
      rw [fsReplace] at h
      rcases List.mem_cons.mp h with h1 | h1
      · by_cases ha : a.1 = n
        · rw [if_pos ha] at h1; exact Or.inr h1
        · rw [if_neg ha] at h1; exact Or.inl (h1 ▸ List.mem_cons_self a rest)
      · rcases ih h1 with h2 | h2
        · exact Or.inl (List.mem_cons_of_mem a h2)
        · exact Or.inr h2
  · rw [if_neg hh] at h
    rcases List.mem_append.mp h with h1 | h1
    · exact Or.inl h1
    · right; simpa using h1

lemma fsGet_cases (fs : Store) (n : Nat) :
    fsGet fs n = [] ∨ ∃ e ∈ fs, fsGet fs n = e.2 := by
  induction fs with
  | nil => exact Or.inl rfl
  | cons e rest ih =>
    rw [fsGet]
    by_cases he : e.1 = n
    · rw [if_pos he]
      exact Or.inr ⟨e, List.mem_cons_self e rest, rfl⟩
    · rw [if_neg he]
      rcases ih with h | ⟨a, ha, hget⟩
      · exact Or.inl h
      · exact Or.inr ⟨a, List.mem_cons_of_mem e ha, hget⟩

lemma saveLoop_no_roll :
    ∀ (B : List Nat) (fs : Store) (cur : Nat) (ex : Shard) (added : Nat),
      ex.length + B.length < 3000 →
      saveLoop B fs cur ex added =
        (fs, cur, ex ++ dedupNew B ex, added + (dedupNew B ex).length) := by
  intro B
  induction B with
  | nil => intro fs cur ex added _; simp [saveLoop, dedupNew]
  | cons u rest ih =>
    intro fs cur ex added h
    rw [saveLoop, dedupNew]
    by_cases hu : u ∈ ex
    · rw [if_pos hu, if_pos hu]
      exact ih fs cur ex added (by simp at h ⊢; omega)
    · rw [if_neg hu, if_neg hu,
        if_neg (show ¬3000 ≤ (ex ++ [u]).length by simp at h ⊢; omega)]
      rw [ih fs cur (ex ++ [u]) (added + 1) (by simp at h ⊢; omega)]
      have hx : (ex ++ [u]) ++ dedupNew rest (ex ++ [u])
          = ex ++ u :: dedupNew rest (ex ++ [u]) := by
        rw [List.append_assoc, List.singleton_append]
      have ha : added + 1 + (dedupNew rest (ex ++ [u])).length
          = added + (u :: dedupNew rest (ex ++ [u])).length := by
        rw [List.length_cons]; omega
      rw [hx, ha]

lemma saveLoop_all_seen :
    ∀ (B : List Nat) (fs : Store) (cur : Nat) (ex : Shard) (added : Nat),
      (∀ u ∈ B, u ∈ ex) → saveLoop B fs cur ex added = (fs, cur, ex, added) := by
  intro B
  induction B with
  | nil => intro fs cur ex added _; rfl
  | cons u rest ih =>
    intro fs cur ex added h
    rw [saveLoop, if_pos (h u (List.mem_cons_self u rest))]
    exact ih fs cur ex added fun v hv => h v (List.mem_cons_of_mem u hv)

lemma dedupNew_mem :
    ∀ (B ex : List Nat) (u : Nat), u ∈ B → u ∈ ex ∨ u ∈ dedupNew B ex := by
  intro B
  induction B with
  | nil => intro ex u h; simp at h
  | cons v rest ih =>
    intro ex u h
    rw [dedupNew]
    by_cases hv : v ∈ ex
    · rw [if_pos hv]
      rcases List.mem_cons.mp h with rfl | hr
      · exact Or.inl hv
      · exact ih ex u hr
    · rw [if_neg hv]
      rcases List.mem_cons.mp h with rfl | hr
      · exact Or.inr (List.mem_cons_self u _)
      · rcases ih (ex ++ [v]) u hr with h1 | h1
        · rcases List.mem_append.mp h1 with h2 | h2
          · exact Or.inl h2
          · exact Or.inr (by simp at h2; simp [h2])
        · exact Or.inr (List.mem_cons_of_mem v h1)

lemma saveLoop_fill :
    ∀ (B : List Nat) (fs : Store) (cur : Nat) (ex : Shard) (added : Nat),
      B.Nodup → (∀ u ∈ B, u ∉ ex) → ex.length + B.length = 3000 → B ≠ [] →
      saveLoop B fs cur ex added =
        (fsWrite fs cur (ex ++ B), cur + 1, [], added + B.length) := by
  intro B
  induction B with
  | nil => intro fs cur ex added _ _ _ hne; exact absurd rfl hne
  | cons u rest ih =>
    intro fs cur ex added hnd hfresh hlen _
    rw [saveLoop, if_neg (hfresh u (List.mem_cons_self u rest))]
    rcases List.eq_nil_or_concat rest with rfl | ⟨_, _, hr⟩
    · rw [if_pos (by simp at hlen ⊢; omega)]
      rw [saveLoop]
      rfl
    · have hrne : rest ≠ [] := by
        rw [hr]; intro hc; exact absurd hc (by simp)
      have hrlen : 1 ≤ rest.length := List.length_pos.mpr hrne
      rw [if_neg (show ¬3000 ≤ (ex ++ [u]).length by simp at hlen ⊢; omega)]
      rw [ih fs cur (ex ++ [u]) (added + 1)
        (List.Nodup.of_cons hnd)
        (fun v hv => by
          simp only [List.mem_append, List.mem_singleton]
          rintro (h1 | rfl)
          · exact hfresh v (List.mem_cons_of_mem u hv) h1
          · exact (List.nodup_cons.mp hnd).1 hv)
        (by simp at hlen ⊢; omega) hrne]
      have hx : (ex ++ [u]) ++ rest = ex ++ u :: rest := by
        rw [List.append_assoc, List.singleton_append]
      have ha : added + 1 + rest.length = added + (u :: rest).length := by
        rw [List.length_cons]; omega
      rw [hx, ha]

lemma saveLoop_nodup :
    ∀ (B : List Nat) (fs : Store) (cur : Nat) (ex : Shard) (added : Nat),
      ex.Nodup → (∀ e ∈ fs, e.2.Nodup) →
      (∀ e ∈ (saveLoop B fs cur ex added).1, e.2.Nodup) ∧
        ((saveLoop B fs cur ex added).2.2.1).Nodup := by
  intro B
  induction B with
  | nil => intro fs cur ex added hex hfs; exact ⟨hfs, hex⟩
  | cons u rest ih =>
    intro fs cur ex added hex hfs
    rw [saveLoop]
    by_cases hu : u ∈ ex
    · rw [if_pos hu]; exact ih fs cur ex added hex hfs
    · rw [if_neg hu]
      have hex' : (ex ++ [u]).Nodup := by
        rw [List.nodup_append]
        refine ⟨hex, List.nodup_singleton u, ?_⟩
        intro x hx hxmem
        rw [List.mem_singleton] at hxmem
        exact hu (hxmem ▸ hx)
      by_cases hroll : 3000 ≤ (ex ++ [u]).length
      · rw [if_pos hroll]
        refine ih (fsWrite fs cur (ex ++ [u])) (cur + 1) [] (added + 1)
          List.nodup_nil ?_
        intro e he
        rcases mem_fsWrite fs cur (ex ++ [u]) e he with h1 | h1
        · exact hfs e h1
        · rw [h1]; exact hex'
      · rw [if_neg hroll]
        exact ih fs cur (ex ++ [u]) (added + 1) hex' hfs

lemma saveLoop_inv :
    ∀ (B : List Nat) (fs : Store) (cur : Nat) (ex : Shard) (added c : Nat),
      fsKeys fs = List.range' 1 c →
      ((cur = c ∧ 1 ≤ c) ∨ cur = c + 1) →
      ex.length < 3000 →
      (∀ e ∈ fs, e.2.length ≤ 3000) →
      ∃ c', fsKeys ((saveLoop B fs cur ex added).1) = List.range' 1 c' ∧
        (((saveLoop B fs cur ex added).2.1 = c' ∧ 1 ≤ c') ∨
          (saveLoop B fs cur ex added).2.1 = c' + 1) ∧
        c ≤ c' ∧
        ((saveLoop B fs cur ex added).2.2.1).length < 3000 ∧
        (∀ e ∈ (saveLoop B fs cur ex added).1, e.2.length ≤ 3000) := by
  intro B
  induction B with
  | nil =>
    intro fs cur ex added c hkeys hcur hex hcap
    exact ⟨c, hkeys, hcur, le_refl c, hex, hcap⟩
  | cons u rest ih =>
    intro fs cur ex added c hkeys hcur hex hcap
    rw [saveLoop]
    by_cases hu : u ∈ ex
    · rw [if_pos hu]; exact ih fs cur ex added c hkeys hcur hex hcap
    · rw [if_neg hu]
      by_cases hroll : 3000 ≤ (ex ++ [u]).length
      · rw [if_pos hroll]
        have hexlen : (ex ++ [u]).length ≤ 3000 := by simp at hex ⊢; omega
        have hcap' : ∀ e ∈ fsWrite fs cur (ex ++ [u]), e.2.length ≤ 3000 := by
          intro e he
          rcases mem_fsWrite fs cur (ex ++ [u]) e he with h1 | h1
          · exact hcap e h1
          · rw [h1]; exact hexlen
        rcases hcur with ⟨rfl, hc1⟩ | rfl
        · have hkeys' : fsKeys (fsWrite fs cur (ex ++ [u])) = List.range' 1 cur :=
            by rw [fsKeys_fsWrite_of_mem fs cur _ (by
                rw [hkeys, List.mem_range'_1]; omega), hkeys]
          obtain ⟨c', h1, h2, h3, h4, h5⟩ :=
            ih (fsWrite fs cur (ex ++ [u])) (cur + 1) [] (added + 1) cur
              hkeys' (Or.inr rfl) (by simp) hcap'
          exact ⟨c', h1, h2, le_trans (le_refl cur) h3, h4, h5⟩
        · have hnm : (c + 1) ∉ fsKeys fs := by
            rw [hkeys, List.mem_range'_1]; omega
          have hkeys' : fsKeys (fsWrite fs (c + 1) (ex ++ [u]))
              = List.range' 1 (c + 1) := by
            rw [fsKeys_fsWrite_of_not_mem fs (c + 1) _ hnm, hkeys]
            rw [List.range'_concat]
            simp [Nat.add_comm]
          obtain ⟨c', h1, h2, h3, h4, h5⟩ :=
            ih (fsWrite fs (c + 1) (ex ++ [u])) (c + 1 + 1) [] (added + 1) (c + 1)
              hkeys' (Or.inr rfl) (by simp) hcap'
          exact ⟨c', h1, h2, by omega, h4, h5⟩
      · rw [if_neg hroll]
        exact ih fs cur (ex ++ [u]) (added + 1) c hkeys hcur (by omega) hcap

lemma activeShard_of_latestKey (fs : Store) (n : Nat)
    (h : latestKey (fsKeys fs) = some n) :
    activeShard fs = (n, fsGet fs n) := by
  unfold activeShard
  rw [h]

lemma activeShard_fst_of_latestKey (fs : Store) (n : Nat)
    (h : latestKey (fsKeys fs) = some n) : (activeShard fs).1 = n := by
  rw [activeShard_of_latestKey fs n h]

lemma activeShard_snd_of_latestKey (fs : Store) (n : Nat)
    (h : latestKey (fsKeys fs) = some n) : (activeShard fs).2 = fsGet fs n := by
  rw [activeShard_of_latestKey fs n h]

lemma saveBatchToYaml_eq (fs : Store) (batch : List Nat) (fs1 : Store)
    (cur1 : Nat) (ex1 : Shard) (added : Nat)
    (h : saveLoop batch fs (activeShard fs).1 (activeShard fs).2 0
        = (fs1, cur1, ex1, added)) :
    saveBatchToYaml fs batch
      = if 0 < added then (fsWrite fs1 cur1 ex1, added) else (fs1, added) := by
  rw [saveBatchToYaml, h]

lemma nodup_range'_one (s n : Nat) : (List.range' s n).Nodup := by
  rw [List.range'_eq_map_range]
  exact List.Nodup.map (fun a b h => by omega) (List.nodup_range n)

lemma fsWrite_fresh (fs : Store) (n : Nat) (s : Shard)
    (h : ∀ e ∈ fs, e.1 ≠ n) : fsWrite fs n s = fs ++ [(n, s)] := by
  rw [fsWrite, if_neg ?_]
  intro hh
  obtain ⟨e, he, hek⟩ := List.mem_map.mp ((fsHas_iff fs n).mp hh)
  exact h e he hek

lemma fsReplace_append (fs1 fs2 : Store) (n : Nat) (s : Shard) :
    fsReplace (fs1 ++ fs2) n s = fsReplace fs1 n s ++ fsReplace fs2 n s := by
  induction fs1 with
  | nil => rfl
  | cons e rest ih => rw [List.cons_append, fsReplace, fsReplace, ih, List.cons_append]

lemma fsReplace_skips (fs : Store) (n : Nat) (s : Shard)
    (h : ∀ e ∈ fs, e.1 ≠ n) : fsReplace fs n s = fs := by
  induction fs with
  | nil => rfl
  | cons e rest ih =>
    rw [fsReplace, if_neg (h e (List.mem_cons_self e rest))]
    rw [ih fun a ha => h a (List.mem_cons_of_mem e ha)]

lemma fsWrite_last (fs : Store) (n : Nat) (s s' : Shard)
    (h : ∀ e ∈ fs, e.1 ≠ n) :
    fsWrite (fs ++ [(n, s)]) n s' = fs ++ [(n, s')] := by
  rw [fsWrite, if_pos ?_]
  · rw [fsReplace_append, fsReplace_skips fs n s' h]
    simp [fsReplace]
  · rw [fsHas_iff]
    simp [fsKeys]

/-- The store holding shards `1..k`, shard `i` filled with the 3000
identities `3000*(i-1) .. 3000*i - 1`. -/
def shardsUpTo : Nat → Store
  | 0 => []
  | k + 1 => shardsUpTo k ++ [(k + 1, List.range' (3000 * k) 3000)]

/-- The store after `k` successive `_save_batch_to_yaml` calls on an
initially empty data directory, call `i` appending the 3000 fresh
identities `3000*(i-1) .. 3000*i - 1`. -/
def afterCalls : Nat → Store
  | 0 => []
  | k + 1 => (saveBatchToYaml (afterCalls k) (List.range' (3000 * k) 3000)).1

lemma shardsUpTo_key_le : ∀ (k : Nat), ∀ e ∈ shardsUpTo k, e.1 ≤ k := by
  intro k
  induction k with
  | zero => intro e he; exact absurd he (by simp [shardsUpTo])
  | succ k ih =>
    intro e he
    rw [shardsUpTo] at he
    rcases List.mem_append.mp he with h1 | h1
    · exact le_trans (ih e h1) (by omega)
    · rw [List.mem_singleton] at h1
      rw [h1]

lemma saveBatch_fill (fs : Store) (B : List Nat) (n : Nat)
    (hact1 : (activeShard fs).1 = n) (hact2 : (activeShard fs).2 = [])
    (hnd : B.Nodup) (hlen : B.length = 3000) :
    saveBatchToYaml fs B = (fsWrite (fsWrite fs n B) (n + 1) [], 3000) := by
  have hne : B ≠ [] := by
    intro h
    rw [h] at hlen
    exact absurd hlen (by decide)
  have hfill := saveLoop_fill B fs n [] 0 hnd (by simp) (by simpa using hlen) hne
  rw [List.nil_append] at hfill
  rw [saveBatchToYaml_eq fs B (fsWrite fs n B) (n + 1) [] (0 + B.length)
    (by rw [hact1, hact2]; exact hfill)]
  rw [if_pos (by omega : 0 < 0 + B.length), hlen, Nat.zero_add]

lemma saveBatch_step (k k1 k2 : Nat) (hk1 : k1 = k + 1) (hk2 : k2 = k + 2)
    (hlk : latestKey (fsKeys (shardsUpTo k ++ [(k1, [])])) = some k1) :
    saveBatchToYaml (shardsUpTo k ++ [(k1, [])]) (List.range' (3000 * k) 3000)
      = (shardsUpTo k1 ++ [(k2, [])], 3000) := by
  subst hk1 hk2
  have hk_le := shardsUpTo_key_le k
  have hnm : ∀ e ∈ shardsUpTo k, e.1 ≠ k + 1 := by
    intro e he h
    have := hk_le e he
    omega
  have hact1 : (activeShard (shardsUpTo k ++ [(k + 1, [])])).1 = k + 1 := by
    unfold activeShard
    rw [hlk]
  have hact2 : (activeShard (shardsUpTo k ++ [(k + 1, [])])).2 = [] := by
    unfold activeShard
    rw [hlk]
    show fsGet (shardsUpTo k ++ [(k + 1, [])]) (k + 1) = []
    rw [fsGet_append_single, if_neg ?_]
    intro hm
    obtain ⟨e, he, hek⟩ := List.mem_map.mp hm
    exact hnm e he hek
  rw [saveBatch_fill (shardsUpTo k ++ [(k + 1, [])]) (List.range' (3000 * k) 3000)
    (k + 1) hact1 hact2 (nodup_range'_one (3000 * k) 3000)
    (by rw [List.length_range'])]
  rw [fsWrite_last (shardsUpTo k) (k + 1) [] (List.range' (3000 * k) 3000) hnm]
  have h2 : fsWrite (shardsUpTo k ++ [(k + 1, List.range' (3000 * k) 3000)])
      (k + 1 + 1) [] = shardsUpTo (k + 1) ++ [(k + 2, [])] := by
    rw [fsWrite_fresh (shardsUpTo k ++ [(k + 1, List.range' (3000 * k) 3000)])
      (k + 1 + 1) [] ?_]
    · rfl
    · intro e he h
      have := shardsUpTo_key_le (k + 1) e (by rw [shardsUpTo]; exact he)
      omega
  rw [h2]

lemma afterCalls_succ (k : Nat) :
    afterCalls (k + 1)
      = (saveBatchToYaml (afterCalls k) (List.range' (3000 * k) 3000)).1 := by
  rw [afterCalls]

lemma afterCalls_one : afterCalls 1 = shardsUpTo 1 ++ [(2, [])] := by
  have e : afterCalls 1
      = (saveBatchToYaml (afterCalls 0) (List.range' (3000 * 0) 3000)).1 :=
    afterCalls_succ 0
  rw [e, show afterCalls 0 = ([] : Store) from rfl]
  rw [saveBatch_fill [] (List.range' (3000 * 0) 3000) 1 rfl rfl
    (nodup_range'_one (3000 * 0) 3000) (by rw [List.length_range'])]
  rw [fsWrite_fresh [] 1 (List.range' (3000 * 0) 3000) (by simp)]
  rw [fsWrite_fresh ([] ++ [(1, List.range' (3000 * 0) 3000)]) 2 [] (by simp)]
  rfl

lemma afterCalls_nine : afterCalls 9 = shardsUpTo 9 ++ [(10, [])] := by
  have h2 : afterCalls 2 = shardsUpTo 2 ++ [(3, [])] := by
    have e : afterCalls 2
        = (saveBatchToYaml (afterCalls 1) (List.range' (3000 * 1) 3000)).1 :=
      afterCalls_succ 1
    rw [e, afterCalls_one, saveBatch_step 1 2 3 rfl rfl (by decide)]
  have h3 : afterCalls 3 = shardsUpTo 3 ++ [(4, [])] := by
    have e : afterCalls 3
        = (saveBatchToYaml (afterCalls 2) (List.range' (3000 * 2) 3000)).1 :=
      afterCalls_succ 2
    rw [e, h2, saveBatch_step 2 3 4 rfl rfl (by decide)]
  have h4 : afterCalls 4 = shardsUpTo 4 ++ [(5, [])] := by
    have e : afterCalls 4
        = (saveBatchToYaml (afterCalls 3) (List.range' (3000 * 3) 3000)).1 :=
      afterCalls_succ 3
    rw [e, h3, saveBatch_step 3 4 5 rfl rfl (by decide)]
  have h5 : afterCalls 5 = shardsUpTo 5 ++ [(6, [])] := by
    have e : afterCalls 5
        = (saveBatchToYaml (afterCalls 4) (List.range' (3000 * 4) 3000)).1 :=
      afterCalls_succ 4
    rw [e, h4, saveBatch_step 4 5 6 rfl rfl (by decide)]
  have h6 : afterCalls 6 = shardsUpTo 6 ++ [(7, [])] := by
    have e : afterCalls 6
        = (saveBatchToYaml (afterCalls 5) (List.range' (3000 * 5) 3000)).1 :=
      afterCalls_succ 5
    rw [e, h5, saveBatch_step 5 6 7 rfl rfl (by decide)]
  have h7 : afterCalls 7 = shardsUpTo 7 ++ [(8, [])] := by
    have e : afterCalls 7
        = (saveBatchToYaml (afterCalls 6) (List.range' (3000 * 6) 3000)).1 :=
      afterCalls_succ 6
    rw [e, h6, saveBatch_step 6 7 8 rfl rfl (by decide)]
  have h8 : afterCalls 8 = shardsUpTo 8 ++ [(9, [])] := by
    have e : afterCalls 8
        = (saveBatchToYaml (afterCalls 7) (List.range' (3000 * 7) 3000)).1 :=
      afterCalls_succ 7
    rw [e, h7, saveBatch_step 7 8 9 rfl rfl (by decide)]
  have e : afterCalls 9
      = (saveBatchToYaml (afterCalls 8) (List.range' (3000 * 8) 3000)).1 :=
    afterCalls_succ 8
  rw [e, h8, saveBatch_step 8 9 10 rfl rfl (by decide)]

/-- C3 (counterexample): appending the same batch twice is claimed to
add 0 records on the second call, for all batches B.  False when the
first append triggers a rollover: appending 3000 fresh identities to an
empty store fills and rolls shard 1 and leaves an empty shard 2 as the
active file; the second append of the same batch loads only shard 2's
(empty) key set, so it re-adds all 3000 records instead of 0. -/
theorem saveBatch_append_twice_not_noop :
    (saveBatchToYaml (saveBatchToYaml [] (List.range' 0 3000)).1
        (List.range' 0 3000)).2 ≠ 0 := by
  have hfirst : saveBatchToYaml [] (List.range' 0 3000)
      = (([] ++ [(1, List.range' 0 3000)]) ++ [(2, [])], 3000) := by
    rw [saveBatch_fill [] (List.range' 0 3000) 1 rfl rfl
      (nodup_range'_one 0 3000) (by rw [List.length_range'])]
    rw [fsWrite_fresh [] 1 (List.range' 0 3000) (by simp)]
    rw [fsWrite_fresh ([] ++ [(1, List.range' 0 3000)]) 2 [] (by simp)]
  rw [hfirst]
  show (saveBatchToYaml (([] ++ [(1, List.range' 0 3000)]) ++ [(2, [])])
      (List.range' 0 3000)).2 ≠ 0
  have hlk : latestKey (fsKeys (([] ++ [(1, List.range' 0 3000)]) ++ [(2, [])]))
      = some 2 := by decide
  have hact1 : (activeShard (([] ++ [(1, List.range' 0 3000)]) ++ [(2, [])])).1
      = 2 := by
    unfold activeShard
    rw [hlk]
  have hact2 : (activeShard (([] ++ [(1, List.range' 0 3000)]) ++ [(2, [])])).2
      = [] := by
    rw [activeShard_of_latestKey _ 2 hlk]
    show fsGet (([] ++ [(1, List.range' 0 3000)]) ++ [(2, [])]) 2 = []
    rfl
  rw [saveBatch_fill (([] ++ [(1, List.range' 0 3000)]) ++ [(2, [])])
    (List.range' 0 3000) 2 hact1 hact2 (nodup_range'_one 0 3000)
    (by rw [List.length_range'])]
  exact (by decide : (3000 : Nat) ≠ 0)

/-- C3 (amended): appending the same batch twice is idempotent provided
the first call triggers no shard rollover, i.e. when the active shard's
current size plus the batch size stays below the 3000-entry capacity:
then the second call adds 0 records and leaves the store unchanged. -/
theorem saveBatch_idempotent_of_no_roll (fs : Store) (B : List Nat)
    (h : ((activeShard fs).2).length + B.length < 3000) :
    (saveBatchToYaml (saveBatchToYaml fs B).1 B).2 = 0 ∧
      (saveBatchToYaml (saveBatchToYaml fs B).1 B).1 = (saveBatchToYaml fs B).1 := by
  have hnr := saveLoop_no_roll B fs (activeShard fs).1 (activeShard fs).2 0 h
  by_cases hD : (dedupNew B (activeShard fs).2).length = 0
  · have hb1 : saveBatchToYaml fs B = (fs, 0) := by
      rw [saveBatchToYaml_eq fs B fs (activeShard fs).1
        ((activeShard fs).2 ++ dedupNew B (activeShard fs).2)
        (0 + (dedupNew B (activeShard fs).2).length) hnr]
      rw [if_neg (by omega), hD]
    constructor
    · rw [hb1]
      show (saveBatchToYaml fs B).2 = 0
      rw [hb1]
    · rw [hb1]
      show (saveBatchToYaml fs B).1 = (fs, 0).1
      rw [hb1]
  · have hb1 : saveBatchToYaml fs B
        = (fsWrite fs (activeShard fs).1
            ((activeShard fs).2 ++ dedupNew B (activeShard fs).2),
          0 + (dedupNew B (activeShard fs).2).length) := by
      rw [saveBatchToYaml_eq fs B fs (activeShard fs).1
        ((activeShard fs).2 ++ dedupNew B (activeShard fs).2)
        (0 + (dedupNew B (activeShard fs).2).length) hnr]
      rw [if_pos (by omega)]
    have hact : (activeShard (fsWrite fs (activeShard fs).1
          ((activeShard fs).2 ++ dedupNew B (activeShard fs).2))).1
            = (activeShard fs).1 ∧
        (activeShard (fsWrite fs (activeShard fs).1
          ((activeShard fs).2 ++ dedupNew B (activeShard fs).2))).2
            = (activeShard fs).2 ++ dedupNew B (activeShard fs).2 := by
      cases hlk : latestKey (fsKeys fs) with
      | none =>
        have hfs : fs = [] := by
          have h0 := (latestKey_eq_none (fsKeys fs)).mp hlk
          cases fs with
          | nil => rfl
          | cons e r => exact absurd h0 (by simp [fsKeys])
        subst hfs
        exact ⟨rfl, rfl⟩
      | some n =>
        have ha : activeShard fs = (n, fsGet fs n) :=
          activeShard_of_latestKey fs n hlk
        have ha1 : (activeShard fs).1 = n := by rw [ha]
        have hmem : n ∈ fsKeys fs := latestKey_mem _ _ hlk
        have hk1 : fsKeys (fsWrite fs (activeShard fs).1
            ((activeShard fs).2 ++ dedupNew B (activeShard fs).2))
              = fsKeys fs := by
          rw [ha1]
          exact fsKeys_fsWrite_of_mem fs n _ hmem
        have hlk1 : latestKey (fsKeys (fsWrite fs (activeShard fs).1
            ((activeShard fs).2 ++ dedupNew B (activeShard fs).2)))
              = some n := by
          rw [hk1, hlk]
        have haW : activeShard (fsWrite fs (activeShard fs).1
            ((activeShard fs).2 ++ dedupNew B (activeShard fs).2))
              = (n, fsGet (fsWrite fs (activeShard fs).1
                  ((activeShard fs).2 ++ dedupNew B (activeShard fs).2)) n) :=
          activeShard_of_latestKey _ n hlk1
        constructor
        · rw [haW, ha1]
        · rw [haW]
          show fsGet (fsWrite fs (activeShard fs).1
              ((activeShard fs).2 ++ dedupNew B (activeShard fs).2)) n
            = (activeShard fs).2 ++ dedupNew B (activeShard fs).2
          rw [ha1]
          exact fsGet_fsWrite_self fs n _
    have hmemB : ∀ u ∈ B, u ∈ (activeShard (fsWrite fs (activeShard fs).1
        ((activeShard fs).2 ++ dedupNew B (activeShard fs).2))).2 := by
      intro u hu
      rw [hact.2]
      rcases dedupNew_mem B (activeShard fs).2 u hu with h1 | h1
      · exact List.mem_append_left _ h1
      · exact List.mem_append_right _ h1
    have hsl2 := saveLoop_all_seen B
      (fsWrite fs (activeShard fs).1
        ((activeShard fs).2 ++ dedupNew B (activeShard fs).2))
      (activeShard (fsWrite fs (activeShard fs).1
        ((activeShard fs).2 ++ dedupNew B (activeShard fs).2))).1
      (activeShard (fsWrite fs (activeShard fs).1
        ((activeShard fs).2 ++ dedupNew B (activeShard fs).2))).2
      0 hmemB
    have hb2 : saveBatchToYaml (fsWrite fs (activeShard fs).1
        ((activeShard fs).2 ++ dedupNew B (activeShard fs).2)) B
          = (fsWrite fs (activeShard fs).1
              ((activeShard fs).2 ++ dedupNew B (activeShard fs).2), 0) := by
      rw [saveBatchToYaml_eq _ B _ _ _ 0 hsl2]
      rw [if_neg (by omega)]
    constructor
    · rw [hb1]
      show (saveBatchToYaml (fsWrite fs (activeShard fs).1
          ((activeShard fs).2 ++ dedupNew B (activeShard fs).2)) B).2 = 0
      rw [hb2]
    · rw [hb1]
      show (saveBatchToYaml (fsWrite fs (activeShard fs).1
            ((activeShard fs).2 ++ dedupNew B (activeShard fs).2)) B).1
          = (fsWrite fs (activeShard fs).1
              ((activeShard fs).2 ++ dedupNew B (activeShard fs).2),
             0 + (dedupNew B (activeShard fs).2).length).1
      rw [hb2]

/-- Witness for `saveBatch_idempotent_of_no_roll`: appending the batch
`[7, 8]` to an empty store and then appending it again adds 0 records
the second time and leaves the store unchanged. -/
theorem saveBatch_idempotent_witness :
    (saveBatchToYaml (saveBatchToYaml [] [7, 8]).1 [7, 8]).2 = 0 ∧
      (saveBatchToYaml (saveBatchToYaml [] [7, 8]).1 [7, 8]).1
        = (saveBatchToYaml [] [7, 8]).1 :=
  saveBatch_idempotent_of_no_roll [] [7, 8] (by decide)

/-- C4 (counterexample): the claim asserts every shard produced across
any sequence of appendBatch calls holds at most 3000 records and rolled
shards are never reopened, including once the shard index reaches 10.
False: after 9 calls of 3000 fresh identities each (shards 1-9 rolled
at exactly 3000, shard 10 the empty active file), the lexicographic
sort of file names makes `vehicles_data_9.yaml` the discovered latest
file, so the 10th call reopens rolled shard 9 and writes 3001 records
into it. -/
theorem recordStore_shard_overflow_on_tenth_call :
    (fsGet (afterCalls 9) 9).length = 3000 ∧
      (fsGet ((saveBatchToYaml (afterCalls 9) [27000]).1) 9).length = 3001 := by
  have h9 := afterCalls_nine
  have hget9 : fsGet (afterCalls 9) 9 = List.range' (3000 * 8) 3000 := by
    rw [h9]
    rfl
  have hlk : latestKey (fsKeys (afterCalls 9)) = some 9 := by
    rw [h9]
    decide
  have hact1 : (activeShard (afterCalls 9)).1 = 9 :=
    activeShard_fst_of_latestKey _ 9 hlk
  have hact2 : (activeShard (afterCalls 9)).2 = List.range' (3000 * 8) 3000 := by
    rw [activeShard_snd_of_latestKey _ 9 hlk]
    exact hget9
  have hnm : (27000 : Nat) ∉ List.range' (3000 * 8) 3000 := by
    rw [List.mem_range'_1]
    omega
  have hsl : saveLoop [27000] (afterCalls 9) 9 (List.range' (3000 * 8) 3000) 0
      = (fsWrite (afterCalls 9) 9 (List.range' (3000 * 8) 3000 ++ [27000]),
         9 + 1, [], 0 + 1) := by
    rw [saveLoop, if_neg hnm,
      if_pos (by rw [List.length_append, List.length_range']; omega)]
    rw [saveLoop]
  have hsave := saveBatchToYaml_eq (afterCalls 9) [27000]
    (fsWrite (afterCalls 9) 9 (List.range' (3000 * 8) 3000 ++ [27000]))
    (9 + 1) [] (0 + 1) (by rw [hact1, hact2]; exact hsl)
  rw [if_pos (by omega)] at hsave
  have hsave1 : (saveBatchToYaml (afterCalls 9) [27000]).1
      = fsWrite
          (fsWrite (afterCalls 9) 9 (List.range' (3000 * 8) 3000 ++ [27000]))
          (9 + 1) [] := by
    rw [hsave]
  refine ⟨by rw [hget9, List.length_range'], ?_⟩
  rw [hsave1]
  rw [fsGet_fsWrite_other _ (9 + 1) 9 [] (by omega)]
  rw [fsGet_fsWrite_self]
  rw [List.length_append, List.length_range']
  rfl

/-- The store's shard suffixes form the gap-free range `1..k` (where
`k` is the number of shard files). -/
def gapFree (fs : Store) : Prop :=
  fsKeys fs = List.range' 1 (fsKeys fs).length

/-- Every shard file holds at most 3000 records. -/
def capacityOk (fs : Store) : Prop :=
  ∀ e ∈ fs, e.2.length ≤ 3000

lemma saveBatch_keys_range (fs : Store) (B : List Nat) (m : Nat)
    (hkeys : fsKeys fs = List.range' 1 m)
    (hact : ((activeShard fs).1 = m ∧ 1 ≤ m) ∨ (activeShard fs).1 = m + 1)
    (hlen : ((activeShard fs).2).length < 3000)
    (hcap : ∀ e ∈ fs, e.2.length ≤ 3000) :
    ∃ m', fsKeys (saveBatchToYaml fs B).1 = List.range' 1 m' ∧ m ≤ m' ∧
      ∀ e ∈ (saveBatchToYaml fs B).1, e.2.length ≤ 3000 := by
  obtain ⟨c', h1, h2, h3, h4, h5⟩ :=
    saveLoop_inv B fs (activeShard fs).1 (activeShard fs).2 0 m hkeys hact hlen hcap
  rw [saveBatchToYaml_eq fs B
    (saveLoop B fs (activeShard fs).1 (activeShard fs).2 0).1
    (saveLoop B fs (activeShard fs).1 (activeShard fs).2 0).2.1
    (saveLoop B fs (activeShard fs).1 (activeShard fs).2 0).2.2.1
    (saveLoop B fs (activeShard fs).1 (activeShard fs).2 0).2.2.2 rfl]
  by_cases hadd : 0 < (saveLoop B fs (activeShard fs).1 (activeShard fs).2 0).2.2.2
  · rw [if_pos hadd]
    rcases h2 with ⟨hc, hc1⟩ | hc
    · refine ⟨c', ?_, h3, ?_⟩
      · show fsKeys (fsWrite
            (saveLoop B fs (activeShard fs).1 (activeShard fs).2 0).1
            (saveLoop B fs (activeShard fs).1 (activeShard fs).2 0).2.1
            (saveLoop B fs (activeShard fs).1 (activeShard fs).2 0).2.2.1)
          = List.range' 1 c'
        rw [hc, fsKeys_fsWrite_of_mem _ c' _
          (by rw [h1, List.mem_range'_1]; omega), h1]
      · show ∀ e ∈ fsWrite
            (saveLoop B fs (activeShard fs).1 (activeShard fs).2 0).1
            (saveLoop B fs (activeShard fs).1 (activeShard fs).2 0).2.1
            (saveLoop B fs (activeShard fs).1 (activeShard fs).2 0).2.2.1,
          e.2.length ≤ 3000
        intro e he
        rcases mem_fsWrite _ _ _ e he with he1 | he1
        · exact h5 e he1
        · rw [he1]
          exact Nat.le_of_lt h4
    · refine ⟨c' + 1, ?_, by omega, ?_⟩
      · show fsKeys (fsWrite
            (saveLoop B fs (activeShard fs).1 (activeShard fs).2 0).1
            (saveLoop B fs (activeShard fs).1 (activeShard fs).2 0).2.1
            (saveLoop B fs (activeShard fs).1 (activeShard fs).2 0).2.2.1)
          = List.range' 1 (c' + 1)
        rw [hc, fsKeys_fsWrite_of_not_mem _ (c' + 1) _
          (by rw [h1, List.mem_range'_1]; omega), h1, List.range'_concat]
        simp [Nat.add_comm]
      · show ∀ e ∈ fsWrite
            (saveLoop B fs (activeShard fs).1 (activeShard fs).2 0).1
            (saveLoop B fs (activeShard fs).1 (activeShard fs).2 0).2.1
            (saveLoop B fs (activeShard fs).1 (activeShard fs).2 0).2.2.1,
          e.2.length ≤ 3000
        intro e he
        rcases mem_fsWrite _ _ _ e he with he1 | he1
        · exact h5 e he1
        · rw [he1]
          exact Nat.le_of_lt h4
  · rw [if_neg hadd]
    exact ⟨c', h1, h3, h5⟩

/-- C4 (amended): as long as the store's shard suffixes are the gap-free
range `1..m`, the discovered active shard is the true numeric latest
(which file-name sorting guarantees only while at most 9 shards exist)
and it holds fewer than 3000 records, an appendBatch call preserves the
invariants: the suffixes remain a gap-free range that extends the old
one, and every shard file holds at most 3000 records. -/
theorem saveBatch_capacity_and_gapfree (fs : Store) (B : List Nat) (m : Nat)
    (hkeys : fsKeys fs = List.range' 1 m)
    (hact : ((activeShard fs).1 = m ∧ 1 ≤ m) ∨ (activeShard fs).1 = m + 1)
    (hlen : ((activeShard fs).2).length < 3000)
    (hcap : capacityOk fs) :
    gapFree (saveBatchToYaml fs B).1 ∧
      m ≤ (fsKeys (saveBatchToYaml fs B).1).length ∧
      capacityOk (saveBatchToYaml fs B).1 := by
  obtain ⟨m', h1, h2, h3⟩ := saveBatch_keys_range fs B m hkeys hact hlen hcap
  refine ⟨?_, ?_, h3⟩
  · rw [gapFree, h1, List.length_range']
  · rw [h1, List.length_range']
    exact h2

/-- Witness for `saveBatch_capacity_and_gapfree`: one appendBatch of a
single record into an empty store yields a gap-free store with every
shard within capacity. -/
theorem saveBatch_capacity_and_gapfree_witness :
    gapFree (saveBatchToYaml [] [5]).1 ∧
      0 ≤ (fsKeys (saveBatchToYaml [] [5]).1).length ∧
      capacityOk (saveBatchToYaml [] [5]).1 :=
  saveBatch_capacity_and_gapfree [] [5] 0 rfl (Or.inr rfl) (by decide)
    (by intro e he; exact absurd he (by simp))

/-- C5 (counterexample): the claim asserts no identity ever occurs in
two distinct shard files.  False: appending 3000 fresh identities
(including identity 0) to an empty store rolls shard 1 and opens an
empty shard 2; re-presenting identity 0 afterwards stores it again in
shard 2, because the membership set is loaded from the active shard
only — identity 0 now occurs in both shard 1 and shard 2. -/
theorem recordStore_identity_in_two_shards :
    (0 : Nat) ∈ fsGet ((saveBatchToYaml (afterCalls 1) [0]).1) 1 ∧
      (0 : Nat) ∈ fsGet ((saveBatchToYaml (afterCalls 1) [0]).1) 2 := by
  have h1 := afterCalls_one
  have hlk : latestKey (fsKeys (afterCalls 1)) = some 2 := by
    rw [h1]
    decide
  have hact1 : (activeShard (afterCalls 1)).1 = 2 :=
    activeShard_fst_of_latestKey _ 2 hlk
  have hget2 : fsGet (afterCalls 1) 2 = [] := by
    rw [h1]
    rfl
  have hact2 : (activeShard (afterCalls 1)).2 = [] := by
    rw [activeShard_snd_of_latestKey _ 2 hlk]
    exact hget2
  have hget1 : fsGet (afterCalls 1) 1 = List.range' (3000 * 0) 3000 := by
    rw [h1]
    rfl
  have hsl : saveLoop [0] (afterCalls 1) 2 [] 0
      = (afterCalls 1, 2, [] ++ [0], 0 + 1) := by
    rw [saveLoop, if_neg (by simp), if_neg (by decide)]
    rw [saveLoop]
  have hsave := saveBatchToYaml_eq (afterCalls 1) [0] (afterCalls 1) 2
    ([] ++ [0]) (0 + 1) (by rw [hact1, hact2]; exact hsl)
  rw [if_pos (by omega)] at hsave
  have hsave1 : (saveBatchToYaml (afterCalls 1) [0]).1
      = fsWrite (afterCalls 1) 2 ([] ++ [0]) := by
    rw [hsave]
  constructor
  · rw [hsave1]
    rw [fsGet_fsWrite_other _ 2 1 _ (by omega), hget1, List.mem_range'_1]
    omega
  · rw [hsave1]
    rw [fsGet_fsWrite_self]
    simp

/-- C5 (amended): within each single shard file every identity occurs at
most once (appendBatch preserves per-shard key uniqueness); uniqueness
ACROSS shards does not hold in general, since only the active shard's
identities are loaded into the membership set. -/
theorem saveBatch_shards_nodup (fs : Store) (B : List Nat)
    (h : ∀ e ∈ fs, e.2.Nodup) :
    ∀ e ∈ (saveBatchToYaml fs B).1, e.2.Nodup := by
  have hex : ((activeShard fs).2).Nodup := by
    cases hlk : latestKey (fsKeys fs) with
    | none =>
      have : activeShard fs = (1, []) := by
        unfold activeShard
        rw [hlk]
      rw [this]
      exact List.nodup_nil
    | some n =>
      rw [activeShard_of_latestKey fs n hlk]
      show (fsGet fs n).Nodup
      rcases fsGet_cases fs n with hg | ⟨e, he, hg⟩
      · rw [hg]
        exact List.nodup_nil
      · rw [hg]
        exact h e he
  obtain ⟨hfs1, hex1⟩ :=
    saveLoop_nodup B fs (activeShard fs).1 (activeShard fs).2 0 hex h
  rw [saveBatchToYaml_eq fs B
    (saveLoop B fs (activeShard fs).1 (activeShard fs).2 0).1
    (saveLoop B fs (activeShard fs).1 (activeShard fs).2 0).2.1
    (saveLoop B fs (activeShard fs).1 (activeShard fs).2 0).2.2.1
    (saveLoop B fs (activeShard fs).1 (activeShard fs).2 0).2.2.2 rfl]
  by_cases hadd : 0 < (saveLoop B fs (activeShard fs).1 (activeShard fs).2 0).2.2.2
  · rw [if_pos hadd]
    show ∀ e ∈ fsWrite
        (saveLoop B fs (activeShard fs).1 (activeShard fs).2 0).1
        (saveLoop B fs (activeShard fs).1 (activeShard fs).2 0).2.1
        (saveLoop B fs (activeShard fs).1 (activeShard fs).2 0).2.2.1,
      e.2.Nodup
    intro e he
    rcases mem_fsWrite _ _ _ e he with he1 | he1
    · exact hfs1 e he1
    · rw [he1]
      exact hex1
  · rw [if_neg hadd]
    exact hfs1

/-- Witness for `saveBatch_shards_nodup`: appending `[1, 1, 2]` to an
empty store stores identity 1 only once in the resulting shard. -/
theorem saveBatch_shards_nodup_witness :
    (fsGet (saveBatchToYaml [] [1, 1, 2]).1 1).Nodup :=
  saveBatch_shards_nodup [] [1, 1, 2] (by simp) (1, [1, 2]) (by decide)

/-!
Paginator: `ArticleLinkParser` (article_parser.py).

`get_all_links` is the external fetch: it either returns the raw `<a>`
hrefs of a page or raises (network/driver failure).  We model it as a
function from the page index (the `currentPage` parameter of the page
url) to `Except Unit (List String)`.  The string operations mirror
python's `in`, `endswith` and `replace` on code-point sequences.
-/

/-- The pattern `"/item/"` of `filter_item_links`. -/
def itemPat : List Char := "/item/".data

/-- The pattern `"#content"` of `filter_item_links`. -/
def contentPat : List Char := "#content".data

/-- The replacement `"/details"` of `filter_item_links`. -/
def detailsRep : List Char := "/details".data

/-- Does `l` start with `pat`? -/
def seqStarts : List Char → List Char → Bool
  | _, [] => true
  | [], _ :: _ => false
  | c :: cs, p :: ps => c == p && seqStarts cs ps

/-- python `pat in l`: does `pat` occur as a contiguous subsequence? -/
def seqHasSub : List Char → List Char → Bool
  | [], pat => pat.isEmpty
  | c :: rest, pat => seqStarts (c :: rest) pat || seqHasSub rest pat

/-- python `l.endswith(pat)`. -/
def seqEnds (l pat : List Char) : Bool :=
  decide (pat.length ≤ l.length) && (l.drop (l.length - pat.length) == pat)

/-- python `l.replace(pat, rep)` for non-empty `pat`: replace every
non-overlapping occurrence left to right.  The fuel argument (initially
`l.length`) only makes the recursion structural; it never runs out
because each step consumes at least one character. -/
def replaceSubAux : Nat → List Char → List Char → List Char → List Char
  | 0, l, _, _ => l
  | _ + 1, [], _, _ => []
  | fuel + 1, c :: rest, pat, rep =>
    if seqStarts (c :: rest) pat && !pat.isEmpty then
      rep ++ replaceSubAux fuel ((c :: rest).drop pat.length) pat rep
    else c :: replaceSubAux fuel rest pat rep

/-- python `l.replace(pat, rep)`. -/
def replaceSub (l pat rep : List Char) : List Char :=
  replaceSubAux l.length l pat rep

/-- Canonicalization `url.replace("#content", "/details")` (article_parser.py line 107). -/
def canonize (url : String) : String := ⟨replaceSub url.data contentPat detailsRep⟩

/-- The loop of `filter_item_links` (article_parser.py lines 101-112):
keep urls containing `"/item/"` and ending with `"#content"`,
canonicalize them, and deduplicate against the per-call `seen` set
(insertion order preserved). -/
def filterItemAux : List String → List String → List String → List String
  | [], _seen, items => items
  | url :: rest, seen, items =>
    if seqHasSub url.data itemPat && seqEnds url.data contentPat then
      if canonize url ∈ seen then filterItemAux rest seen items
      else filterItemAux rest (seen ++ [canonize url]) (items ++ [canonize url])
    else filterItemAux rest seen items

/-- Embedding of `ArticleLinkParser.filter_item_links`. -/
def filter_item_links (links : List String) : List String :=
  filterItemAux links [] []

/-- Embedding of `ArticleLinkParser.get_item_links` (article_parser.py lines
114-119): `try: return filter_item_links(get_all_links(url)) except
Exception: return []` — a raising page fetch yields the empty list. -/
def get_item_links (fetch : Nat → Except Unit (List String)) (p : Nat) :
    List String :=
  match fetch p with
  | .ok links => filter_item_links links
  | .error _ => []

/-- The inner link loop of `scrape_all_links` (article_parser.py lines
184-190): skip links in `seen_links`, append the rest to `batch`, and
yield the batch each time it reaches `batch_size`.  Returns the yielded
batches and the final (partial) batch. -/
def emitLinks : List String → List String → Nat → List String →
    List (List String) × List String
  | [], _seen, _bs, batch => ([], batch)
  | l :: rest, seen, bs, batch =>
    if l ∈ seen then emitLinks rest seen bs batch
    else if (batch ++ [l]).length = bs then
      ((batch ++ [l]) :: (emitLinks rest seen bs []).1,
        (emitLinks rest seen bs []).2)
    else emitLinks rest seen bs (batch ++ [l])

/-- The page loop of `scrape_all_links` (article_parser.py lines
180-190), over the given list of page indices. -/
def pagesLoop (gil : Nat → List String) (seen : List String) (bs : Nat) :
    List Nat → List String → List (List String) × List String
  | [], batch => ([], batch)
  | p :: ps, batch =>
    ((emitLinks (gil p) seen bs batch).1
        ++ (pagesLoop gil seen bs ps (emitLinks (gil p) seen bs batch).2).1,
      (pagesLoop gil seen bs ps (emitLinks (gil p) seen bs batch).2).2)

/-- Embedding of `ArticleLinkParser.scrape_all_links` (article_parser.py lines
162-193): walk pages `1..max_pages`, collect per-page item links via
`gil` (= `get_item_links` of some fetch), and yield batches; a trailing
non-empty batch is yielded at the end.  `seen` is the `seen_links`
argument, never mutated by the walk. -/
def scrape_all_links (gil : Nat → List String) (maxPages bs : Nat)
    (seen : List String) : List (List String) :=
  if (pagesLoop gil seen bs ((List.range maxPages).map (· + 1)) []).2.isEmpty then
    (pagesLoop gil seen bs ((List.range maxPages).map (· + 1)) []).1
  else
    (pagesLoop gil seen bs ((List.range maxPages).map (· + 1)) []).1
      ++ [(pagesLoop gil seen bs ((List.range maxPages).map (· + 1)) []).2]

lemma emitLinks_flatten (seen : List String) (bs : Nat) :
    ∀ (ls : List String) (batch : List String),
      ((emitLinks ls seen bs batch).1).flatten ++ (emitLinks ls seen bs batch).2
        = batch ++ ls.filter (fun l => decide (l ∉ seen)) := by
  intro ls
  induction ls with
  | nil => intro batch; simp [emitLinks]
  | cons l rest ih =>
    intro batch
    rw [emitLinks]
    by_cases hl : l ∈ seen
    · rw [if_pos hl, ih batch, List.filter_cons_of_neg (by simp [hl])]
    · rw [if_neg hl, List.filter_cons_of_pos (by simp [hl])]
      by_cases hb : (batch ++ [l]).length = bs
      · rw [if_pos hb]
        show ((batch ++ [l]) :: (emitLinks rest seen bs []).1).flatten
            ++ (emitLinks rest seen bs []).2
          = batch ++ l :: rest.filter (fun l => decide (l ∉ seen))
        rw [List.flatten_cons, List.append_assoc, ih []]
        simp
      · rw [if_neg hb, ih (batch ++ [l])]
        simp

lemma pagesLoop_flatten (gil : Nat → List String) (seen : List String) (bs : Nat) :
    ∀ (ps : List Nat) (batch : List String),
      ((pagesLoop gil seen bs ps batch).1).flatten
          ++ (pagesLoop gil seen bs ps batch).2
        = batch ++ ((ps.map gil).flatten).filter (fun l => decide (l ∉ seen)) := by
  intro ps
  induction ps with
  | nil => intro batch; simp [pagesLoop]
  | cons p rest ih =>
    intro batch
    rw [pagesLoop]
    show ((emitLinks (gil p) seen bs batch).1
        ++ (pagesLoop gil seen bs rest (emitLinks (gil p) seen bs batch).2).1).flatten
        ++ (pagesLoop gil seen bs rest (emitLinks (gil p) seen bs batch).2).2
      = batch ++ (((p :: rest).map gil).flatten).filter (fun l => decide (l ∉ seen))
    rw [List.flatten_append, List.append_assoc,
      ih (emitLinks (gil p) seen bs batch).2]
    rw [← List.append_assoc, emitLinks_flatten seen bs (gil p) batch,
      List.map_cons, List.flatten_cons, List.filter_append, List.append_assoc]

/-- C7 (amended): the concatenation of all yielded batches equals the
concatenation of the per-page item-link lists filtered only against the
initial `seen_links` — deduplication happens within a single page (the
`filter_item_links` output of one page contains no duplicates) and
against `seen_links`, but nothing records links yielded from earlier
pages, so a link occurring on two different pages is yielded once per
page. -/
theorem scrape_join_characterization :
    (∀ (gil : Nat → List String) (n bs : Nat) (seen : List String),
      (scrape_all_links gil n bs seen).flatten
        = ((((List.range n).map (· + 1)).map gil).flatten).filter
            (fun l => decide (l ∉ seen))) ∧
    ∀ links : List String, (filter_item_links links).Nodup := by
  constructor
  · intro gil n bs seen
    rw [scrape_all_links]
    by_cases hb : (pagesLoop gil seen bs ((List.range n).map (· + 1)) []).2.isEmpty
    · rw [if_pos hb]
      have hj := pagesLoop_flatten gil seen bs ((List.range n).map (· + 1)) []
      rw [List.isEmpty_iff] at hb
      rw [hb, List.append_nil] at hj
      rw [hj, List.nil_append]
    · rw [if_neg hb]
      have hj := pagesLoop_flatten gil seen bs ((List.range n).map (· + 1)) []
      rw [List.nil_append] at hj
      rw [List.flatten_append, List.flatten_cons, List.flatten_nil,
        List.append_nil, hj]
  · intro links
    have : ∀ (ls seen items : List String), items.Nodup →
        (∀ u ∈ items, u ∈ seen) → (filterItemAux ls seen items).Nodup := by
      intro ls
      induction ls with
      | nil => intro seen items h _; exact h
      | cons url rest ih =>
        intro seen items hnd hsub
        rw [filterItemAux]
        by_cases hkeep : (seqHasSub url.data itemPat
            && seqEnds url.data contentPat) = true
        · rw [if_pos hkeep]
          by_cases hseen : canonize url ∈ seen
          · rw [if_pos hseen]
            exact ih seen items hnd hsub
          · rw [if_neg hseen]
            refine ih (seen ++ [canonize url]) (items ++ [canonize url]) ?_ ?_
            · rw [List.nodup_append]
              refine ⟨hnd, List.nodup_singleton _, ?_⟩
              intro x hx hxc
              rw [List.mem_singleton] at hxc
              exact hseen (hxc ▸ hsub x hx)
            · intro u hu
              rcases List.mem_append.mp hu with h1 | h1
              · exact List.mem_append_left _ (hsub u h1)
              · exact List.mem_append_right _ h1
        · rw [if_neg hkeep]
          exact ih seen items hnd hsub
    exact this links [] [] List.nodup_nil (by simp)

/-- A fixed page-to-links mapping on which every page carries the same
item link. -/
def dupFetch : Nat → Except Unit (List String) :=
  fun _ => .ok ["x/item/1#content"]

/-- C7 (counterexample): the claim says no URL appears more than once in
the concatenation of all batches yielded by `scrape_all_links`, even
when the same item link occurs on two different catalog pages.  False:
with the same link on pages 1 and 2 and an empty `seen_links`, the link
is yielded twice — nothing adds yielded links to a visited set that
outlives one page. -/
theorem scrape_duplicate_across_pages :
    ¬ ((scrape_all_links (get_item_links dupFetch) 2 10 []).flatten).Nodup := by
  decide

/-- C9: a raising page fetch is treated as an empty page: on a page
index whose retrieval raises, `get_item_links` returns `[]`, and the
whole walk behaves exactly as if that page had been fetched
successfully with no links — the walk continues and the other pages'
links are yielded unchanged. -/
theorem get_item_links_failure_empty_page
    (fetch : Nat → Except Unit (List String)) (p : Nat) (e : Unit)
    (n bs : Nat) (seen : List String) (h : fetch p = .error e) :
    get_item_links fetch p = [] ∧
      scrape_all_links (get_item_links fetch) n bs seen
        = scrape_all_links
            (get_item_links (fun q => if q = p then .ok [] else fetch q))
            n bs seen := by
  have h1 : get_item_links fetch p = [] := by
    rw [get_item_links, h]
  refine ⟨h1, ?_⟩
  have hfun : get_item_links fetch
      = get_item_links (fun q => if q = p then .ok [] else fetch q) := by
    funext q
    by_cases hq : q = p
    · subst hq
      rw [get_item_links, get_item_links, h, if_pos (rfl : q = q)]
      rfl
    · rw [get_item_links, get_item_links, if_neg hq]
  rw [hfun]

/-- A fetch on which exactly page 1 raises. -/
def failFetch : Nat → Except Unit (List String) :=
  fun q => if q = 1 then .error () else .ok []

/-- Witness for `get_item_links_failure_empty_page` at a concrete
failing fetch. -/
theorem get_item_links_failure_witness :
    get_item_links failFetch 1 = [] ∧
      scrape_all_links (get_item_links failFetch) 3 10 []
        = scrape_all_links
            (get_item_links (fun q => if q = 1 then .ok [] else failFetch q))
            3 10 [] :=
  get_item_links_failure_empty_page failFetch 1 () 3 10 [] (by decide)

/-!
Daily job: `run_daily_job` (orchestrator.py lines 104-170).

The per-chunk loop: parse every link of the chunk (a python list
comprehension — the first raising `parse_vehicle` call aborts the whole
comprehension), save the batch to the record store, run the matcher,
and continue with the next chunk.  `run_daily_job` has no `except`
handler (only a `finally` closing the driver), so any exception
terminates the run; the error value carries the store and cache as they
were when the exception surfaced.
-/

/-- python exception kinds relevant to the run loop. -/
inductive PyErr
  | attributeError
  | extractionError
  deriving DecidableEq, Repr

/-- The comprehension `[parse_vehicle(parser, url) for url in links_chunk]`
(orchestrator.py line 140): left-to-right, first failure aborts. -/
def parseAll (parse : Nat → Except PyErr Car) : List Nat → Except PyErr (List Car)
  | [] => .ok []
  | u :: rest =>
    match parse u with
    | .error e => .error e
    | .ok car =>
      match parseAll parse rest with
      | .error e => .error e
      | .ok cars => .ok (car :: cars)

/-- The batch loop of `run_daily_job` (orchestrator.py lines 126-149)
over the chunks yielded by the paginator: parse, save, match, count
hits; any exception aborts the remaining chunks. -/
def runChunks (parse : Nat → Except PyErr Car) (queries : List String) (bs : Nat) :
    List (List Nat) → Store → Finset Nat → Nat →
      Except (PyErr × Store × Finset Nat) (Store × Finset Nat × Nat)
  | [], fs, cache, mailed => .ok (fs, cache, mailed)
  | chunk :: rest, fs, cache, mailed =>
    match parseAll parse chunk with
    | .error e => .error (e, fs, cache)
    | .ok cars =>
      match CarMatcher.matchCars cache queries cars bs with
      | .error _ =>
        .error (.attributeError, (saveBatchToYaml fs (cars.map Car.url)).1, cache)
      | .ok (hits, cache1) =>
        runChunks parse queries bs rest (saveBatchToYaml fs (cars.map Car.url)).1
          cache1 (mailed + hits.length)

/-- A parse function that fails on url 0 and succeeds elsewhere. -/
def parseFail : Nat → Except PyErr Car :=
  fun u => if u = 0 then .error .extractionError else .ok ⟨u⟩

/-- C8 (counterexample): the claim says an extraction failure for a
single item only drops that identity and the rest of the batch is still
processed.  False: with a chunk `[0, 1]` where parsing url 0 raises,
the whole run aborts — nothing of the chunk (in particular the
perfectly parseable url 1) is stored or matched. -/
theorem runChunks_extraction_failure_aborts_run :
    runChunks parseFail ["q"] 10 [[0, 1]] [] ∅ 0
      = .error (.extractionError, [], ∅) := by
  decide

/-- C8 (amended): an extraction failure while parsing a chunk aborts the
batch and the whole run: the exception of the first failing
`parse_vehicle` call propagates out of the list comprehension and out
of the batch loop (which has no `except` handler), the failing chunk is
not stored, and the remaining chunks are never processed. -/
theorem runChunks_parse_failure_aborts (parse : Nat → Except PyErr Car)
    (queries : List String) (bs : Nat) (chunk : List Nat)
    (rest : List (List Nat)) (fs : Store) (cache : Finset Nat) (mailed : Nat)
    (e : PyErr) (h : parseAll parse chunk = .error e) :
    runChunks parse queries bs (chunk :: rest) fs cache mailed
      = .error (e, fs, cache) := by
  rw [runChunks, h]

/-- Witness for `runChunks_parse_failure_aborts` at a concrete input. -/
theorem runChunks_parse_failure_witness :
    runChunks parseFail ["q"] 10 [[0, 1], [2]] [] ∅ 0
      = .error (.extractionError, [], ∅) :=
  runChunks_parse_failure_aborts parseFail ["q"] 10 [0, 1] [[2]] [] ∅ 0
    .extractionError (by decide)

end CarAlerts
